import Mathlib

/-!
Verification development for the Ivy-Homes autocomplete extraction system.

The repository has two entry points:
* `src/app.py` — a threaded BFS exploration engine (`bfs_explore`) over name
  prefixes, using a sliding-window `RateLimiter` and a retrying request client
  (`make_api_request`);
* `src/autocomplete_extractor.py` — an async explorer (`AutocompleteExplorer`)
  that enumerates one- and two-character queries for three endpoint versions,
  with a `make_request` client that recurses on HTTP 429.

This file gives a shallow embedding of those parts and proves / refutes the
frozen claims about them.  Network responses are modelled by oracles (functions
from the attempt index, or from the queried string, to an outcome), which makes
every run of the embedded code deterministic given its oracle.  Wall-clock time
is modelled by natural numbers; sleeps and latencies are oracle-chosen
nonnegative durations.
-/

/-! ## Constants from src/app.py -/

def RATE_LIMIT : ℕ := 100

def MAX_RETRIES : ℕ := 5

def MAX_WORKERS : ℕ := 20

/-- Window (seconds) passed to `RateLimiter` in `bfs_explore`: `RateLimiter(RATE_LIMIT, 60)`. -/
def WINDOW : ℕ := 60

/-- Page limit hardcoded in `bfs_explore`: `response.get("count", 0) == 10`. -/
def PAGE_LIMIT : ℕ := 10

/-- A query string sent to the endpoint, as its list of characters. -/
abbrev Pfx := List Char

/-- The lowercase ASCII alphabet, `string.ascii_lowercase`. -/
def lowercase : List Char :=
  ['a', 'b', 'c', 'd', 'e', 'f', 'g', 'h', 'i', 'j', 'k', 'l', 'm',
   'n', 'o', 'p', 'q', 'r', 's', 't', 'u', 'v', 'w', 'x', 'y', 'z']

/-- The digits `string.digits`. -/
def digits : List Char := ['0', '1', '2', '3', '4', '5', '6', '7', '8', '9']

/-! ## Model of src/autocomplete_extractor.py -/

/-- The special characters `'+- .'` appearing in `explore_v3`. -/
def specials : List Char := ['+', '-', ' ', '.']

/-- The v3 alphabet: `string.ascii_lowercase + string.digits + '+- .'`. -/
def v3_chars : List Char := lowercase ++ digits ++ specials

/-- The two-character queries issued by `AutocompleteExplorer.explore_v3`:
for `first` in `chars`, for `second` in `chars`, skipping the pair when both
characters are special (`if (first in '+- .' and second in '+- .'): continue`). -/
def v3_two_char_queries : List Pfx :=
  v3_chars.flatMap (fun a =>
    v3_chars.filterMap (fun b =>
      if a ∈ specials ∧ b ∈ specials then none else some [a, b]))

/-- Outcome of one HTTP exchange inside `AutocompleteExplorer.make_request`:
either `session.get` (or reading the body) raises, or a response with a status
arrives.  For a 200 response, `body` is the outcome of `await response.json()`
followed by `data.get("results", [])`: `Except.error` if parsing raised
(caught by the surrounding `except`), otherwise the optional `results` field. -/
inductive XOut where
  | exn : XOut
  | resp (status : ℕ) (body : Except Unit (Option (List String))) : XOut

/-- Shallow embedding of `AutocompleteExplorer.make_request`.  The oracle `o`
gives the outcome of the `k`-th HTTP exchange of this call chain.  The Python
function retries a 429 by an unbounded recursive self-call (after a 61 s
sleep); the embedding makes that recursion total with a `fuel` bound: a result
of `none` means the recursion was still running after `fuel` exchanges.  The
second component counts how many times the body of `make_request` ran, i.e.
how many times `self.requests_count[version] += 1` executed. -/
def make_request (o : ℕ → XOut) : ℕ → ℕ → Option (List String) × ℕ
  | 0, _ => (none, 0)
  | fuel + 1, k =>
    match o k with
    | XOut.exn => (some [], 1)
    | XOut.resp status body =>
      if status = 429 then
        let r := make_request o fuel (k + 1)
        (r.1, r.2 + 1)
      else if status = 200 then
        match body with
        | Except.error _ => (some [], 1)
        | Except.ok b => (some (b.getD []), 1)
      else (some [], 1)

/-! ## Model of `make_api_request` from src/app.py (trace semantics) -/

/-- Events emitted by `make_api_request`, in program order:
`wait` is a call to `rate_limiter.wait_if_needed()`, `send` is the
`requests.get` call going out, `record` is `rate_limiter.add_request()`,
`sleep d` is `time.sleep(d)`. -/
inductive Ev where
  | wait : Ev
  | send : Ev
  | record : Ev
  | sleep (d : ℕ) : Ev
deriving DecidableEq

/-- A successfully parsed JSON payload, as consumed by `bfs_explore`:
the `results` list and the `count` field (`response.get("count", 0)`). -/
structure QueryRes where
  results : List String
  count : ℕ
deriving DecidableEq

/-- Outcome of one attempt inside `make_api_request`: either `requests.get`
raises `requests.RequestException`, or a response with a status arrives.
For a 200 response, `body = none` means `response.json()` raised. -/
inductive AOut where
  | exn : AOut
  | resp (status : ℕ) (body : Option QueryRes) : AOut
deriving DecidableEq

/-- Result of `make_api_request`: a parsed payload, `fail` for the
`return None` after exhausting retries, or `raised` when `response.json()`
raised on a 200 response (the only uncaught exception path). -/
inductive MResult where
  | ok (j : QueryRes) : MResult
  | fail : MResult
  | raised : MResult
deriving DecidableEq

/-- One pass of the loop `for attempt in range(MAX_RETRIES)` in
`make_api_request`, starting at attempt `k` with `fuel` attempts left.
Returns the result together with the trace of events in program order:
every attempt calls `wait_if_needed`, then issues `requests.get`;
`add_request` runs right after a response arrives (and not at all when the
transport raised); 429 sleeps `60 * (attempt + 1)`, other errors sleep
`2 ^ attempt` when a retry remains. -/
def make_api_request_from (o : ℕ → AOut) : ℕ → ℕ → MResult × List Ev
  | _, 0 => (MResult.fail, [])
  | k, fuel + 1 =>
    match o k with
    | AOut.exn =>
      let tail := if k < MAX_RETRIES - 1 then [Ev.sleep (2 ^ k)] else []
      let r := make_api_request_from o (k + 1) fuel
      (r.1, Ev.wait :: Ev.send :: (tail ++ r.2))
    | AOut.resp status body =>
      if status = 200 then
        match body with
        | some j => (MResult.ok j, [Ev.wait, Ev.send, Ev.record])
        | none => (MResult.raised, [Ev.wait, Ev.send, Ev.record])
      else if status = 429 then
        let r := make_api_request_from o (k + 1) fuel
        (r.1, Ev.wait :: Ev.send :: Ev.record :: Ev.sleep (60 * (k + 1)) :: r.2)
      else
        let tail := if k < MAX_RETRIES - 1 then [Ev.sleep (2 ^ k)] else []
        let r := make_api_request_from o (k + 1) fuel
        (r.1, Ev.wait :: Ev.send :: Ev.record :: (tail ++ r.2))

/-- Shallow embedding of `make_api_request(query, rate_limiter)`:
the loop `for attempt in range(MAX_RETRIES)`. -/
def make_api_request (o : ℕ → AOut) : MResult × List Ev :=
  make_api_request_from o 0 MAX_RETRIES

/-- An attempt outcome is terminal when the loop exits on it:
only a 200 response returns (or raises) out of the loop; exceptions,
429 and other statuses fall through to the next attempt. -/
def nonTerm : AOut → Prop
  | AOut.exn => True
  | AOut.resp status _ => status ≠ 200

instance (a : AOut) : Decidable (nonTerm a) := by
  cases a with
  | exn => exact isTrue trivial
  | resp status body => exact inferInstanceAs (Decidable (status ≠ 200))

/-! ## Model of `bfs_explore` from src/app.py

The loop body of `bfs_explore` runs on the main thread: it pops up to
`MAX_WORKERS` prefixes from `queue` (skipping ones in `processed`, and adding
the selected ones to `processed`), submits them to the executor, and then —
still on the main thread, iterating `as_completed` — merges each result and
appends the expansions of saturated results to `queue`.  Only the HTTP calls
run concurrently, so a step of the embedded system is: select a batch, then
fold the result handler over the batch in an arbitrary completion order.
The per-prefix response is an oracle `Oracle`; `none` stands for any value of
`response` for which `response and "results" in response` is falsy (a `None`
from exhausted retries, or a payload without a `results` field), and also for
an exception caught by the `except` around the result processing. -/

/-- Per-prefix response as seen by the result-processing code of `bfs_explore`. -/
abbrev Oracle := Pfx → Option QueryRes

/-- State of `bfs_explore`, plus three history fields that record events
without influencing execution: `issued` lists the prefixes submitted to the
executor (in submission order), `enqHist` lists every value ever appended to
`queue` (seeds included), and `handled` lists the prefixes whose completed
future has been processed. -/
structure BfsState where
  queue : List Pfx
  processed : List Pfx
  allNames : List String
  requestCount : ℕ
  handled : List Pfx
  issued : List Pfx
  enqHist : List Pfx
deriving DecidableEq

/-- The seed prefixes: `deque(string.ascii_lowercase)`. -/
def seeds : List Pfx := lowercase.map (fun c => [c])

/-- Initial state of `bfs_explore`. -/
def initState : BfsState :=
  { queue := seeds, processed := [], allNames := [], requestCount := 0,
    handled := [], issued := [], enqHist := seeds }

/-- The batch-selection loop:
`for _ in range(min(MAX_WORKERS, len(queue))): prefix = queue.popleft();
if prefix not in processed: current_batch.append(prefix); processed.add(prefix)`.
Returns `(current_batch, queue, processed)` after `n` iterations. -/
def takeBatch : ℕ → List Pfx → List Pfx → List Pfx × List Pfx × List Pfx
  | 0, q, pr => ([], q, pr)
  | _ + 1, [], pr => ([], [], pr)
  | n + 1, p :: q, pr =>
    if p ∈ pr then takeBatch n q pr
    else
      let r := takeBatch n q (p :: pr)
      (p :: r.1, r.2.1, r.2.2)

/-- Set-union of a result list into `all_names` (`all_names.update(results)`),
keeping first-seen order. -/
def unionNames (acc : List String) (res : List String) : List String :=
  res.foldl (fun a n => if n ∈ a then a else a ++ [n]) acc

/-- The expansions appended for a saturated prefix:
`for char in string.ascii_lowercase: new_prefix = prefix + char;
if new_prefix not in processed: queue.append(new_prefix)`. -/
def newChildren (pr : List Pfx) (p : Pfx) : List Pfx :=
  lowercase.filterMap (fun c => if (p ++ [c]) ∈ pr then none else some (p ++ [c]))

/-- Processing of one completed future in the `as_completed` loop:
merge names, and when `response.get("count", 0) == 10`, append the unseen
one-character extensions to the queue.  `handled` is a history field. -/
def handleOne (o : Oracle) (s : BfsState) (p : Pfx) : BfsState :=
  match o p with
  | none => { s with handled := s.handled ++ [p] }
  | some r =>
    if r.count = PAGE_LIMIT then
      let cs := newChildren s.processed p
      { s with allNames := unionNames s.allNames r.results,
               queue := s.queue ++ cs,
               enqHist := s.enqHist ++ cs,
               handled := s.handled ++ [p] }
    else
      { s with allNames := unionNames s.allNames r.results,
               handled := s.handled ++ [p] }

/-- Batch selection followed by submission to the executor
(`request_count += len(current_batch)`). -/
def dispatch (s : BfsState) : List Pfx × BfsState :=
  let r := takeBatch (min MAX_WORKERS s.queue.length) s.queue s.processed
  (r.1, { s with queue := r.2.1, processed := r.2.2,
                 requestCount := s.requestCount + r.1.length,
                 issued := s.issued ++ r.1 })

/-- The batch that one iteration of the `while queue` loop selects in state `s`. -/
def batchOf (s : BfsState) : List Pfx :=
  (takeBatch (min MAX_WORKERS s.queue.length) s.queue s.processed).1

/-- One full iteration of the `while queue` loop: select and submit the batch,
then process the completed futures in order `ord` (a permutation of the batch —
`as_completed` yields them in an arbitrary order). -/
def bfsStep (o : Oracle) (ord : List Pfx) (s : BfsState) : BfsState :=
  ord.foldl (handleOne o) (dispatch s).2

/-- Reachability between states of `bfs_explore`: zero or more loop iterations,
each with a nonempty queue (the `while queue` guard) and an arbitrary
completion order of its batch. -/
inductive ReachFrom (o : Oracle) : BfsState → BfsState → Prop
  | refl (s : BfsState) : ReachFrom o s s
  | step (s t : BfsState) (ord : List Pfx) :
      ReachFrom o s t → t.queue ≠ [] → ord.Perm (batchOf t) →
      ReachFrom o s (bfsStep o ord t)

/-- States reachable in a run of `bfs_explore`. -/
def Reach (o : Oracle) (s : BfsState) : Prop := ReachFrom o initState s

/-- Invariant of `bfs_explore` maintained by every loop iteration. -/
structure BfsInv (o : Oracle) (s : BfsState) : Prop where
  enq_nodup : s.enqHist.Nodup
  issued_nodup : s.issued.Nodup
  handled_proc : ∀ p ∈ s.handled, p ∈ s.processed
  q_nodup : s.queue.Nodup
  q_proc : ∀ p ∈ s.queue, p ∉ s.processed
  q_enq : ∀ p ∈ s.queue, p ∈ s.enqHist
  proc_enq : ∀ p ∈ s.processed, p ∈ s.enqHist
  issued_proc : ∀ p ∈ s.issued, p ∈ s.processed
  proc_issued : ∀ p ∈ s.processed, p ∈ s.issued
  enq_len : ∀ q ∈ s.enqHist, 1 ≤ q.length
  enq_parent : ∀ q ∈ s.enqHist, 2 ≤ q.length →
    q.dropLast ∈ s.handled ∧ ∃ r, o q.dropLast = some r ∧ r.count = PAGE_LIMIT

/-- Invariant holding while the `as_completed` loop is in flight: `pend` is the
list of batch members whose future has not been processed yet. -/
structure MidInv (o : Oracle) (pend : List Pfx) (s : BfsState) : Prop where
  enq_nodup : s.enqHist.Nodup
  handled_proc : ∀ p ∈ s.handled, p ∈ s.processed
  q_nodup : s.queue.Nodup
  q_proc : ∀ p ∈ s.queue, p ∉ s.processed
  q_enq : ∀ p ∈ s.queue, p ∈ s.enqHist
  proc_enq : ∀ p ∈ s.processed, p ∈ s.enqHist
  enq_len : ∀ q ∈ s.enqHist, 1 ≤ q.length
  enq_parent : ∀ q ∈ s.enqHist, 2 ≤ q.length →
    q.dropLast ∈ s.handled ∧ ∃ r, o q.dropLast = some r ∧ r.count = PAGE_LIMIT
  pend_nodup : pend.Nodup
  pend_handled : ∀ p ∈ pend, p ∉ s.handled
  pend_proc : ∀ p ∈ pend, p ∈ s.processed
  pend_len : ∀ p ∈ pend, 1 ≤ p.length

/-! ## Model of `RateLimiter` from src/app.py

Timestamps are natural numbers (the code uses `time.time()`; only ordering and
window arithmetic matter).  `RateLimiter.add_request` pops expired timestamps
from the front of the deque (`while self.timestamps and self.timestamps[0] <
now - self.window: popleft`) and appends `now`; over ℕ the removal condition
`x < now - window` (with truncated subtraction) is written `x + window < now`,
which agrees with the real-number condition for all values. -/

/-- The expiry loop of `RateLimiter.add_request`. -/
def pruneTs (window now : ℕ) (ts : List ℕ) : List ℕ :=
  ts.dropWhile (fun x => decide (x + window < now))

/-- `RateLimiter.add_request()` called at time `now`. -/
def add_request (window now : ℕ) (ts : List ℕ) : List ℕ :=
  pruneTs window now ts ++ [now]

/-- Number of sends falling in the half-open sliding window `(t - window, t]`. -/
def windowCount (window t : ℕ) (sends : List ℕ) : ℕ :=
  (sends.filter (fun x => decide (t < x + window ∧ x ≤ t))).length

/-! ### Sequential runs (one caller at a time)

A sequential run is a list of requests, each parametrised by three
oracle-chosen durations: `gap` (time between the previous request and this
one), `slack` (extra wall time between the end of `wait_if_needed` and the
`requests.get` actually going out — `time.sleep` may oversleep, and the request
takes time to leave), and `lat` (time between the send and the
`add_request` call, i.e. the response latency).  `sends` records when each
request went out; `recs` is a ghost list of every timestamp ever recorded
(never pruned). -/

structure SeqState where
  now : ℕ
  ts : List ℕ
  sends : List ℕ
  recs : List ℕ
deriving DecidableEq

/-- The time at which `RateLimiter.wait_if_needed()` returns when called in
state `s`: immediately when fewer than `limit` timestamps are retained;
otherwise after sleeping `window - (now - oldest)` (clamped at 0), i.e. at
time `oldest + window` at the earliest. -/
def waitNow (limit window : ℕ) (s : SeqState) : ℕ :=
  if s.ts.length < limit then s.now
  else
    match s.ts with
    | [] => s.now
    | o :: _ => max s.now (o + window)

/-- `RateLimiter.wait_if_needed()`: only the caller's clock changes. -/
def wait_if_needed (limit window : ℕ) (s : SeqState) : SeqState :=
  { s with now := waitNow limit window s }

/-- One request of the success path of `make_api_request`, seen by the
rate limiter: `wait_if_needed`, then `requests.get` goes out, then
`add_request` once the response arrives. -/
def doRequest (limit window : ℕ) (s : SeqState) (gap slack lat : ℕ) : SeqState :=
  let s1 := { s with now := s.now + gap }
  let s2 := wait_if_needed limit window s1
  let v := s2.now + slack
  { now := v + lat,
    ts := add_request window (v + lat) s2.ts,
    sends := s2.sends ++ [v],
    recs := s2.recs ++ [v + lat] }

/-- Rate limiter state at the start of a run. -/
def initSeq : SeqState := { now := 0, ts := [], sends := [], recs := [] }

/-- A sequential run: the requests in order, each with its three durations. -/
def seqRun (limit window : ℕ) (script : List (ℕ × ℕ × ℕ)) : SeqState :=
  script.foldl (fun s r => doRequest limit window s r.1 r.2.1 r.2.2) initSeq

/-- Invariant of sequential rate-limited runs.  `wcount` is the rate bound
itself; the other fields make it inductive. -/
structure SeqInv (limit window : ℕ) (s : SeqState) : Prop where
  ts_le : s.ts.length ≤ limit
  ts_suffix : s.ts.IsSuffix s.recs
  recs_sorted : s.recs.Sorted (· < ·)
  recs_le_now : ∀ x ∈ s.recs, x ≤ s.now
  sends_le_now : ∀ x ∈ s.sends, x ≤ s.now
  send_le_rec : List.Forall₂ (· ≤ ·) s.sends s.recs
  dropped_old : ∀ x ∈ s.recs, x ∉ s.ts → x + window < s.now
  wcount : ∀ t, windowCount window t s.sends ≤ limit

/-! ### Concurrent runs (the thread pool of `bfs_explore`)

`bfs_explore` hands `make_api_request` to a `ThreadPoolExecutor` with
`MAX_WORKERS` threads, all sharing one unlocked `RateLimiter`.  A thread's
fast path through the limiter is: read `len(self.timestamps)` in
`wait_if_needed` (and return immediately when it is below the limit), issue
`requests.get`, then run `add_request`.  The interleaving of these three
phases across threads is arbitrary; the model below makes each phase atomic
(coarser than Python's real granularity, so every behaviour of the model is a
behaviour of the code).  `passedCnt` counts threads past the limiter check but
not yet sent; `sentCnt` counts threads sent but not yet recorded; together
they are bounded by the pool size. -/

structure CState where
  now : ℕ
  ts : List ℕ
  passedCnt : ℕ
  sentCnt : ℕ
  sends : List ℕ
deriving DecidableEq

inductive CAct where
  | check : CAct
  | send : CAct
  | record : CAct
  | advance (d : ℕ) : CAct
deriving DecidableEq

/-- One atomic phase of one thread (or a lapse of time).  `none` means the
action is not enabled (no thread in the right phase, pool exhausted, or the
limiter check would block because `limit` timestamps are retained). -/
def cstep (limit window workers : ℕ) (s : CState) : CAct → Option CState
  | CAct.check =>
    if s.passedCnt + s.sentCnt < workers ∧ s.ts.length < limit then
      some { s with passedCnt := s.passedCnt + 1 }
    else none
  | CAct.send =>
    if 0 < s.passedCnt then
      some { s with passedCnt := s.passedCnt - 1, sentCnt := s.sentCnt + 1,
                    sends := s.sends ++ [s.now] }
    else none
  | CAct.record =>
    if 0 < s.sentCnt then
      some { s with sentCnt := s.sentCnt - 1,
                    ts := add_request window s.now s.ts }
    else none
  | CAct.advance d => some { s with now := s.now + d }

def initC : CState :=
  { now := 0, ts := [], passedCnt := 0, sentCnt := 0, sends := [] }

/-- Run a schedule of thread phases from the initial state; `none` when some
action of the schedule was not enabled. -/
def runScript (limit window workers : ℕ) (script : List CAct) : Option CState :=
  script.foldl (fun acc a => acc.bind (fun s => cstep limit window workers s a))
    (some initC)

/-- A state of the shared rate limiter reachable by some interleaving of the
`MAX_WORKERS` pool threads of `bfs_explore`. -/
def ConcReach (s : CState) : Prop :=
  ∃ script : List CAct, runScript RATE_LIMIT WINDOW MAX_WORKERS script = some s

/-- The interleaving used to refute the rate bound: 99 requests complete
sequentially at time 0 (filling the deque to 99 timestamps), then all 20 pool
threads pass the `len(self.timestamps) < self.limit` check — each reads 99 —
and all 20 issue their `requests.get`, giving 119 sends at time 0. -/
def raceScript : List CAct :=
  (List.replicate 99 [CAct.check, CAct.send, CAct.record]).flatten ++
    List.replicate 20 CAct.check ++ List.replicate 20 CAct.send

def raceFinal : CState :=
  (runScript RATE_LIMIT WINDOW MAX_WORKERS raceScript).getD initC

/-! ## Auxiliary definitions used by the theorems -/

/-- Whether an attempt outcome is a raised transport exception. -/
def isExn : AOut → Bool
  | AOut.exn => true
  | AOut.resp _ _ => false

/-- Allowed adjacency of events in a `make_api_request` trace: a `record` may
only appear immediately after a `send` (the code calls `add_request` right
after `requests.get` returns), and a `send` only immediately after a `wait`
(the code calls `wait_if_needed` right before `requests.get`). -/
def pairOk : Ev → Ev → Bool
  | Ev.send, Ev.record => true
  | _, Ev.record => false
  | Ev.wait, Ev.send => true
  | _, Ev.send => false
  | _, _ => true

/-- All adjacent pairs of the trace satisfy `pairOk`. -/
def pairsOk : List Ev → Bool
  | a :: b :: rest => pairOk a b && pairsOk (b :: rest)
  | _ => true

/-- The trace is empty or starts with a `wait` (so no `send` or `record`
happens before the first `wait_if_needed`). -/
def headWait : List Ev → Bool
  | [] => true
  | Ev.wait :: _ => true
  | _ => false

/-- The attempt indices the loop of `make_api_request` actually executes,
starting at attempt `k` with `fuel` attempts left: each executed attempt is
followed by the next one unless its outcome exits the loop. -/
def execOf (o : ℕ → AOut) : ℕ → ℕ → List ℕ
  | _, 0 => []
  | k, fuel + 1 => k :: (if nonTerm (o k) then execOf o (k + 1) fuel else [])

/-- The part of a `BfsState` that influences execution (everything except the
`handled` history field). -/
structure Core where
  queue : List Pfx
  processed : List Pfx
  allNames : List String
  requestCount : ℕ
  issued : List Pfx
  enqHist : List Pfx
deriving DecidableEq

def core (s : BfsState) : Core :=
  { queue := s.queue, processed := s.processed, allNames := s.allNames,
    requestCount := s.requestCount, issued := s.issued, enqHist := s.enqHist }

/-! ## Lemmas about batch selection -/

theorem takeBatch_queue (n : ℕ) (q pr : List Pfx) :
    (takeBatch n q pr).2.1 = q.drop n := by
  induction n generalizing q pr with
  | zero => simp [takeBatch]
  | succ n ih =>
    cases q with
    | nil => simp [takeBatch]
    | cons p q =>
      by_cases hp : p ∈ pr
      · simp [takeBatch, hp, ih]
      · simp [takeBatch, hp, ih]

theorem takeBatch_proc_mem (n : ℕ) (q pr : List Pfx) (x : Pfx) :
    x ∈ (takeBatch n q pr).2.2 ↔ x ∈ (takeBatch n q pr).1 ∨ x ∈ pr := by
  induction n generalizing q pr with
  | zero => simp [takeBatch]
  | succ n ih =>
    cases q with
    | nil => simp [takeBatch]
    | cons p q =>
      by_cases hp : p ∈ pr
      · simpa [takeBatch, hp] using ih q pr
      · simp only [takeBatch, hp, if_false]
        rw [ih q (p :: pr)]
        simp only [List.mem_cons]
        tauto

theorem takeBatch_batch_sub (n : ℕ) (q pr : List Pfx) :
    ∀ x ∈ (takeBatch n q pr).1, x ∈ q.take n := by
  induction n generalizing q pr with
  | zero => simp [takeBatch]
  | succ n ih =>
    cases q with
    | nil => simp [takeBatch]
    | cons p q =>
      by_cases hp : p ∈ pr
      · intro x hx
        simp only [takeBatch, hp, if_true] at hx
        exact List.mem_cons_of_mem _ (ih q pr x hx)
      · intro x hx
        simp only [takeBatch, hp, if_false, List.mem_cons] at hx
        rcases hx with rfl | hx
        · simp
        · exact List.mem_cons_of_mem _ (ih q (p :: pr) x hx)

theorem takeBatch_batch_not_pr (n : ℕ) (q pr : List Pfx) :
    ∀ x ∈ (takeBatch n q pr).1, x ∉ pr := by
  induction n generalizing q pr with
  | zero => simp [takeBatch]
  | succ n ih =>
    cases q with
    | nil => simp [takeBatch]
    | cons p q =>
      by_cases hp : p ∈ pr
      · intro x hx
        simp only [takeBatch, hp, if_true] at hx
        exact ih q pr x hx
      · intro x hx
        simp only [takeBatch, hp, if_false, List.mem_cons] at hx
        rcases hx with rfl | hx
        · exact hp
        · intro hmem
          exact ih q (p :: pr) x hx (List.mem_cons_of_mem _ hmem)

theorem takeBatch_batch_nodup (n : ℕ) (q pr : List Pfx) :
    (takeBatch n q pr).1.Nodup := by
  induction n generalizing q pr with
  | zero => simp [takeBatch]
  | succ n ih =>
    cases q with
    | nil => simp [takeBatch]
    | cons p q =>
      by_cases hp : p ∈ pr
      · simpa [takeBatch, hp] using ih q pr
      · simp only [takeBatch, hp, if_false, List.nodup_cons]
        refine ⟨fun hmem => ?_, ih q (p :: pr)⟩
        exact takeBatch_batch_not_pr n q (p :: pr) p hmem (List.mem_cons_self p pr)

theorem takeBatch_eq_take (n : ℕ) (q pr : List Pfx) (hq : q.Nodup)
    (h : ∀ x ∈ q, x ∉ pr) : (takeBatch n q pr).1 = q.take n := by
  induction n generalizing q pr with
  | zero => simp [takeBatch]
  | succ n ih =>
    cases q with
    | nil => simp [takeBatch]
    | cons p q =>
      have hp : p ∉ pr := h p (List.mem_cons_self p q)
      simp only [takeBatch, hp, if_false, List.take_succ_cons]
      rw [ih q (p :: pr) (List.Nodup.of_cons hq)]
      intro x hx
      simp only [List.mem_cons, not_or]
      exact ⟨fun hxp => (List.nodup_cons.mp hq).1 (hxp ▸ hx),
             h x (List.mem_cons_of_mem _ hx)⟩

/-! ## Lemmas about the result-handling fold -/

theorem handleOne_processed (o : Oracle) (s : BfsState) (p : Pfx) :
    (handleOne o s p).processed = s.processed := by
  cases h : o p with
  | none => simp [handleOne, h]
  | some r => by_cases hc : r.count = PAGE_LIMIT <;> simp [handleOne, h, hc]

theorem handleOne_issued (o : Oracle) (s : BfsState) (p : Pfx) :
    (handleOne o s p).issued = s.issued := by
  cases h : o p with
  | none => simp [handleOne, h]
  | some r => by_cases hc : r.count = PAGE_LIMIT <;> simp [handleOne, h, hc]

theorem handleOne_requestCount (o : Oracle) (s : BfsState) (p : Pfx) :
    (handleOne o s p).requestCount = s.requestCount := by
  cases h : o p with
  | none => simp [handleOne, h]
  | some r => by_cases hc : r.count = PAGE_LIMIT <;> simp [handleOne, h, hc]

theorem foldl_processed (o : Oracle) (l : List Pfx) (s : BfsState) :
    (l.foldl (handleOne o) s).processed = s.processed := by
  induction l generalizing s with
  | nil => rfl
  | cons p l ih => rw [List.foldl_cons, ih, handleOne_processed]

theorem foldl_issued (o : Oracle) (l : List Pfx) (s : BfsState) :
    (l.foldl (handleOne o) s).issued = s.issued := by
  induction l generalizing s with
  | nil => rfl
  | cons p l ih => rw [List.foldl_cons, ih, handleOne_issued]

theorem foldl_requestCount (o : Oracle) (l : List Pfx) (s : BfsState) :
    (l.foldl (handleOne o) s).requestCount = s.requestCount := by
  induction l generalizing s with
  | nil => rfl
  | cons p l ih => rw [List.foldl_cons, ih, handleOne_requestCount]

theorem handleOne_enq_mono (o : Oracle) (s : BfsState) (p : Pfx) :
    ∀ x ∈ s.enqHist, x ∈ (handleOne o s p).enqHist := by
  intro x hx
  cases h : o p with
  | none => simpa [handleOne, h] using hx
  | some r =>
    by_cases hc : r.count = PAGE_LIMIT <;> simp [handleOne, h, hc]
    · exact Or.inl hx
    · exact hx

theorem foldl_enq_mono (o : Oracle) (l : List Pfx) (s : BfsState) :
    ∀ x ∈ s.enqHist, x ∈ (l.foldl (handleOne o) s).enqHist := by
  induction l generalizing s with
  | nil => intro x hx; exact hx
  | cons p l ih =>
    intro x hx
    exact ih (handleOne o s p) x (handleOne_enq_mono o s p x hx)

theorem handleOne_queue_ext (o : Oracle) (s : BfsState) (p : Pfx) :
    ∃ ext, (handleOne o s p).queue = s.queue ++ ext := by
  cases h : o p with
  | none => exact ⟨[], by simp [handleOne, h]⟩
  | some r =>
    by_cases hc : r.count = PAGE_LIMIT
    · exact ⟨newChildren s.processed p, by simp [handleOne, h, hc]⟩
    · exact ⟨[], by simp [handleOne, h, hc]⟩

theorem foldl_queue_ext (o : Oracle) (l : List Pfx) (s : BfsState) :
    ∃ ext, (l.foldl (handleOne o) s).queue = s.queue ++ ext := by
  induction l generalizing s with
  | nil => exact ⟨[], by simp⟩
  | cons p l ih =>
    obtain ⟨e1, he1⟩ := handleOne_queue_ext o s p
    obtain ⟨e2, he2⟩ := ih (handleOne o s p)
    exact ⟨e1 ++ e2, by rw [List.foldl_cons, he2, he1, List.append_assoc]⟩

/-! ## Lemmas about expansion -/

theorem lowercase_nodup : lowercase.Nodup := by decide

theorem newChildren_mem (pr : List Pfx) (p x : Pfx) :
    x ∈ newChildren pr p ↔ ∃ c ∈ lowercase, x = p ++ [c] ∧ (p ++ [c]) ∉ pr := by
  simp only [newChildren, List.mem_filterMap]
  constructor
  · rintro ⟨c, hc, hf⟩
    by_cases hm : (p ++ [c]) ∈ pr
    · simp [hm] at hf
    · simp only [hm, if_false, Option.some.injEq] at hf
      exact ⟨c, hc, hf.symm, hm⟩
  · rintro ⟨c, hc, rfl, hm⟩
    exact ⟨c, hc, by simp [hm]⟩

theorem newChildren_nodup (pr : List Pfx) (p : Pfx) :
    (newChildren pr p).Nodup := by
  refine List.Nodup.filterMap ?_ lowercase_nodup
  intro a a' b ha ha'
  by_cases hm : (p ++ [a]) ∈ pr
  · simp [hm] at ha
  · by_cases hm' : (p ++ [a']) ∈ pr
    · simp [hm'] at ha'
    · simp only [hm, hm', if_false, Option.mem_def, Option.some.injEq] at ha ha'
      have : p ++ [a] = p ++ [a'] := by rw [ha, ha']
      simpa using List.append_cancel_left this

theorem newChildren_len (pr : List Pfx) (p x : Pfx) (hx : x ∈ newChildren pr p) :
    x.length = p.length + 1 := by
  obtain ⟨c, _, rfl, _⟩ := (newChildren_mem pr p x).mp hx
  simp

theorem newChildren_dropLast (pr : List Pfx) (p x : Pfx) (hx : x ∈ newChildren pr p) :
    x.dropLast = p := by
  obtain ⟨c, _, rfl, _⟩ := (newChildren_mem pr p x).mp hx
  exact List.dropLast_concat

/-! ## Preservation of the mid-batch invariant -/

theorem midinv_new_fresh (o : Oracle) (p : Pfx) (pend : List Pfx) (s : BfsState)
    (h : MidInv o (p :: pend) s) :
    ∀ x ∈ newChildren s.processed p, x ∉ s.enqHist := by
  intro x hx hmem
  have hlen : 2 ≤ x.length := by
    have := newChildren_len s.processed p x hx
    have hp1 : 1 ≤ p.length := h.pend_len p (List.mem_cons_self p pend)
    omega
  have hpar := (h.enq_parent x hmem hlen).1
  rw [newChildren_dropLast s.processed p x hx] at hpar
  exact h.pend_handled p (List.mem_cons_self p pend) hpar

theorem midinv_step (o : Oracle) (p : Pfx) (pend : List Pfx) (s : BfsState)
    (h : MidInv o (p :: pend) s) : MidInv o pend (handleOne o s p) := by
  have hpend_nd := h.pend_nodup
  have hp_notpend : p ∉ pend := (List.nodup_cons.mp hpend_nd).1
  cases ho : o p with
  | none =>
    refine ⟨?_, ?_, ?_, ?_, ?_, ?_, ?_, ?_, ?_, ?_, ?_, ?_⟩ <;>
      (try simp only [handleOne, ho])
    · exact h.enq_nodup
    · intro x hx
      rcases List.mem_append.mp hx with hx | hx
      · exact h.handled_proc x hx
      · rw [List.mem_singleton.mp hx]
        exact h.pend_proc p (List.mem_cons_self p pend)
    · exact h.q_nodup
    · exact h.q_proc
    · exact h.q_enq
    · exact h.proc_enq
    · exact h.enq_len
    · intro q hq hlen
      obtain ⟨hpar, hr⟩ := h.enq_parent q hq hlen
      exact ⟨List.mem_append_left _ hpar, hr⟩
    · exact (List.nodup_cons.mp hpend_nd).2
    · intro x hx hmem
      rcases List.mem_append.mp hmem with hmem | hmem
      · exact h.pend_handled x (List.mem_cons_of_mem _ hx) hmem
      · exact hp_notpend (List.mem_singleton.mp hmem ▸ hx)
    · intro x hx
      exact h.pend_proc x (List.mem_cons_of_mem _ hx)
    · intro x hx
      exact h.pend_len x (List.mem_cons_of_mem _ hx)
  | some r =>
    by_cases hc : r.count = PAGE_LIMIT
    · have hfresh := midinv_new_fresh o p pend s h
      have hdisj : s.enqHist.Disjoint (newChildren s.processed p) :=
        fun x hx hx' => hfresh x hx' hx
      refine ⟨?_, ?_, ?_, ?_, ?_, ?_, ?_, ?_, ?_, ?_, ?_, ?_⟩ <;>
        (try simp only [handleOne, ho, hc, if_true])
      · exact List.Nodup.append h.enq_nodup (newChildren_nodup s.processed p) hdisj
      · intro x hx
        rcases List.mem_append.mp hx with hx | hx
        · exact h.handled_proc x hx
        · rw [List.mem_singleton.mp hx]
          exact h.pend_proc p (List.mem_cons_self p pend)
      · refine List.Nodup.append h.q_nodup (newChildren_nodup s.processed p) ?_
        intro x hx hx'
        exact hfresh x hx' (h.q_enq x hx)
      · intro x hx
        rcases List.mem_append.mp hx with hx | hx
        · exact h.q_proc x hx
        · obtain ⟨c, _, rfl, hm⟩ := (newChildren_mem s.processed p x).mp hx
          exact hm
      · intro x hx
        rcases List.mem_append.mp hx with hx | hx
        · exact List.mem_append_left _ (h.q_enq x hx)
        · exact List.mem_append_right _ hx
      · intro x hx
        exact List.mem_append_left _ (h.proc_enq x hx)
      · intro q hq
        rcases List.mem_append.mp hq with hq | hq
        · exact h.enq_len q hq
        · rw [newChildren_len s.processed p q hq]
          omega
      · intro q hq hlen
        rcases List.mem_append.mp hq with hq | hq
        · obtain ⟨hpar, hr⟩ := h.enq_parent q hq hlen
          exact ⟨List.mem_append_left _ hpar, hr⟩
        · rw [newChildren_dropLast s.processed p q hq]
          exact ⟨List.mem_append_right _ (List.mem_singleton_self p), r, ho, hc⟩
      · exact (List.nodup_cons.mp hpend_nd).2
      · intro x hx hmem
        rcases List.mem_append.mp hmem with hmem | hmem
        · exact h.pend_handled x (List.mem_cons_of_mem _ hx) hmem
        · exact hp_notpend (List.mem_singleton.mp hmem ▸ hx)
      · intro x hx
        exact h.pend_proc x (List.mem_cons_of_mem _ hx)
      · intro x hx
        exact h.pend_len x (List.mem_cons_of_mem _ hx)
    · refine ⟨?_, ?_, ?_, ?_, ?_, ?_, ?_, ?_, ?_, ?_, ?_, ?_⟩ <;>
        (try simp only [handleOne, ho, hc, if_false])
      · exact h.enq_nodup
      · intro x hx
        rcases List.mem_append.mp hx with hx | hx
        · exact h.handled_proc x hx
        · rw [List.mem_singleton.mp hx]
          exact h.pend_proc p (List.mem_cons_self p pend)
      · exact h.q_nodup
      · exact h.q_proc
      · exact h.q_enq
      · exact h.proc_enq
      · exact h.enq_len
      · intro q hq hlen
        obtain ⟨hpar, hr⟩ := h.enq_parent q hq hlen
        exact ⟨List.mem_append_left _ hpar, hr⟩
      · exact (List.nodup_cons.mp hpend_nd).2
      · intro x hx hmem
        rcases List.mem_append.mp hmem with hmem | hmem
        · exact h.pend_handled x (List.mem_cons_of_mem _ hx) hmem
        · exact hp_notpend (List.mem_singleton.mp hmem ▸ hx)
      · intro x hx
        exact h.pend_proc x (List.mem_cons_of_mem _ hx)
      · intro x hx
        exact h.pend_len x (List.mem_cons_of_mem _ hx)

theorem midinv_fold (o : Oracle) (l pend : List Pfx) (s : BfsState)
    (h : MidInv o (l ++ pend) s) :
    MidInv o pend (l.foldl (handleOne o) s) := by
  induction l generalizing s with
  | nil => exact h
  | cons p l ih =>
    rw [List.foldl_cons]
    exact ih (handleOne o s p) (midinv_step o p (l ++ pend) s h)

theorem dispatch_midinv (o : Oracle) (s : BfsState) (ord : List Pfx)
    (h : BfsInv o s) (hperm : ord.Perm (batchOf s)) :
    MidInv o ord (dispatch s).2 := by
  set n := min MAX_WORKERS s.queue.length with hn
  have hbatch : batchOf s = (takeBatch n s.queue s.processed).1 := rfl
  have hq2 : (takeBatch n s.queue s.processed).2.1 = s.queue.drop n :=
    takeBatch_queue n s.queue s.processed
  have hmem := takeBatch_proc_mem n s.queue s.processed
  have hsub := takeBatch_batch_sub n s.queue s.processed
  have hnot := takeBatch_batch_not_pr n s.queue s.processed
  have hnd := takeBatch_batch_nodup n s.queue s.processed
  have htd : ∀ x ∈ s.queue.take n, ∀ y ∈ s.queue.drop n, x ≠ y := by
    have : (s.queue.take n ++ s.queue.drop n).Nodup := by
      rw [List.take_append_drop]; exact h.q_nodup
    intro x hx y hy hxy
    exact (List.disjoint_of_nodup_append this) hx (hxy ▸ hy)
  have hbq : ∀ x ∈ (takeBatch n s.queue s.processed).1, x ∈ s.queue := by
    intro x hx
    exact List.mem_of_mem_take (hsub x hx)
  refine ⟨?_, ?_, ?_, ?_, ?_, ?_, ?_, ?_, ?_, ?_, ?_, ?_⟩ <;>
    (try simp only [dispatch])
  · exact h.enq_nodup
  · intro x hx
    exact (hmem x).mpr (Or.inr (h.handled_proc x hx))
  · rw [hq2]
    exact List.Nodup.sublist (List.drop_sublist n s.queue) h.q_nodup
  · intro x hx
    rw [hq2] at hx
    intro hmem'
    rcases (hmem x).mp hmem' with hb | hp
    · exact htd x (hsub x hb) x hx rfl
    · exact h.q_proc x (List.mem_of_mem_drop hx) hp
  · intro x hx
    rw [hq2] at hx
    exact h.q_enq x (List.mem_of_mem_drop hx)
  · intro x hx
    rcases (hmem x).mp hx with hb | hp
    · exact h.q_enq x (hbq x hb)
    · exact h.proc_enq x hp
  · exact h.enq_len
  · exact h.enq_parent
  · exact hperm.nodup_iff.mpr hnd
  · intro x hx hmem'
    have hxb : x ∈ batchOf s := hperm.mem_iff.mp hx
    exact hnot x hxb (h.handled_proc x hmem')
  · intro x hx
    exact (hmem x).mpr (Or.inl (hperm.mem_iff.mp hx))
  · intro x hx
    exact h.enq_len x (h.q_enq x (hbq x (hperm.mem_iff.mp hx)))

theorem bfsinv_step (o : Oracle) (s : BfsState) (ord : List Pfx)
    (h : BfsInv o s) (hperm : ord.Perm (batchOf s)) :
    BfsInv o (bfsStep o ord s) := by
  set n := min MAX_WORKERS s.queue.length with hn
  have hmem := takeBatch_proc_mem n s.queue s.processed
  have hsub := takeBatch_batch_sub n s.queue s.processed
  have hnot := takeBatch_batch_not_pr n s.queue s.processed
  have hnd := takeBatch_batch_nodup n s.queue s.processed
  have hbq : ∀ x ∈ (takeBatch n s.queue s.processed).1, x ∈ s.queue := by
    intro x hx
    exact List.mem_of_mem_take (hsub x hx)
  have hmid : MidInv o [] (bfsStep o ord s) := by
    have := midinv_fold o ord [] (dispatch s).2
      (by simpa using dispatch_midinv o s ord h hperm)
    exact this
  have hproc : (bfsStep o ord s).processed = (dispatch s).2.processed :=
    foldl_processed o ord (dispatch s).2
  have hiss : (bfsStep o ord s).issued = s.issued ++ (takeBatch n s.queue s.processed).1 := by
    rw [bfsStep, foldl_issued]
    rfl
  refine ⟨hmid.enq_nodup, ?_, hmid.handled_proc, hmid.q_nodup, hmid.q_proc,
    hmid.q_enq, hmid.proc_enq, ?_, ?_, hmid.enq_len, hmid.enq_parent⟩
  · rw [hiss]
    refine List.Nodup.append h.issued_nodup hnd ?_
    intro x hx hx'
    exact hnot x hx' (h.issued_proc x hx)
  · intro x hx
    rw [hiss] at hx
    rw [hproc]
    show x ∈ (takeBatch n s.queue s.processed).2.2
    rcases List.mem_append.mp hx with hx | hx
    · exact (hmem x).mpr (Or.inr (h.issued_proc x hx))
    · exact (hmem x).mpr (Or.inl hx)
  · intro x hx
    rw [hproc] at hx
    rw [hiss]
    have : x ∈ (takeBatch n s.queue s.processed).2.2 := hx
    rcases (hmem x).mp this with hb | hp
    · exact List.mem_append_right _ hb
    · exact List.mem_append_left _ (h.proc_issued x hp)

theorem seeds_len (q : Pfx) (hq : q ∈ seeds) : q.length = 1 := by
  obtain ⟨c, _, rfl⟩ := List.mem_map.mp hq
  rfl

theorem bfsinv_init (o : Oracle) : BfsInv o initState := by
  refine ⟨?_, ?_, ?_, ?_, ?_, ?_, ?_, ?_, ?_, ?_, ?_⟩
  · decide
  · decide
  · intro p hp
    simp [initState] at hp
  · decide
  · intro p _ hp
    simp [initState] at hp
  · intro p hp
    exact hp
  · intro p hp
    simp [initState] at hp
  · intro p hp
    simp [initState] at hp
  · intro p hp
    simp [initState] at hp
  · intro q hq
    rw [seeds_len q hq]
  · intro q hq hlen
    rw [seeds_len q hq] at hlen
    omega

theorem bfsinv_reachFrom (o : Oracle) (s t : BfsState)
    (hreach : ReachFrom o s t) (h : BfsInv o s) : BfsInv o t := by
  induction hreach with
  | refl => exact h
  | step t ord hr hq hperm ih => exact bfsinv_step o t ord ih hperm

theorem reach_inv (o : Oracle) (s : BfsState) (h : Reach o s) : BfsInv o s :=
  bfsinv_reachFrom o initState s h (bfsinv_init o)

/-! ## Support lemmas for expansion and failure handling -/

theorem reachFrom_enq_mono (o : Oracle) (s t : BfsState) (h : ReachFrom o s t) :
    ∀ x ∈ s.enqHist, x ∈ t.enqHist := by
  induction h with
  | refl => exact fun x hx => hx
  | step t ord hr hq hperm ih =>
    intro x hx
    exact foldl_enq_mono o ord (dispatch t).2 x (ih x hx)

theorem handleOne_children (o : Oracle) (p : Pfx) (pend : List Pfx) (s : BfsState)
    (h : MidInv o (p :: pend) s) (r : QueryRes) (hr : o p = some r)
    (hc : r.count = PAGE_LIMIT) :
    ∀ c ∈ lowercase, p ++ [c] ∈ (handleOne o s p).enqHist := by
  intro c hcmem
  have hnotp : (p ++ [c]) ∉ s.processed := by
    intro hmem
    have henq : (p ++ [c]) ∈ s.enqHist := h.proc_enq _ hmem
    have hlen : 2 ≤ (p ++ [c]).length := by
      have := h.pend_len p (List.mem_cons_self p pend)
      simp only [List.length_append, List.length_cons, List.length_nil]
      omega
    have hpar := (h.enq_parent _ henq hlen).1
    rw [List.dropLast_concat] at hpar
    exact h.pend_handled p (List.mem_cons_self p pend) hpar
  have hmem : (p ++ [c]) ∈ newChildren s.processed p :=
    (newChildren_mem _ _ _).mpr ⟨c, hcmem, rfl, hnotp⟩
  simp only [handleOne, hr, hc, if_true, List.mem_append]
  exact Or.inr hmem

theorem handleOne_core_congr (o : Oracle) (p : Pfx) (s t : BfsState)
    (h : core s = core t) : core (handleOne o s p) = core (handleOne o t p) := by
  have hq : s.queue = t.queue := congrArg Core.queue h
  have hpr : s.processed = t.processed := congrArg Core.processed h
  have hn : s.allNames = t.allNames := congrArg Core.allNames h
  have hrc : s.requestCount = t.requestCount := congrArg Core.requestCount h
  have hi : s.issued = t.issued := congrArg Core.issued h
  have he : s.enqHist = t.enqHist := congrArg Core.enqHist h
  cases ho : o p with
  | none => simp [handleOne, ho, core, hq, hpr, hn, hrc, hi, he]
  | some r =>
    by_cases hc : r.count = PAGE_LIMIT <;>
      simp [handleOne, ho, hc, core, hq, hpr, hn, hrc, hi, he]

theorem foldl_core_congr (o : Oracle) (l : List Pfx) (s t : BfsState)
    (h : core s = core t) :
    core (l.foldl (handleOne o) s) = core (l.foldl (handleOne o) t) := by
  induction l generalizing s t with
  | nil => exact h
  | cons p l ih =>
    rw [List.foldl_cons, List.foldl_cons]
    exact ih _ _ (handleOne_core_congr o p s t h)

theorem handleOne_none_core (o : Oracle) (s : BfsState) (p : Pfx)
    (h : o p = none) : core (handleOne o s p) = core s := by
  simp [handleOne, h, core]

/-! ## Lemmas about the trace of `make_api_request` -/

theorem mar_send_count (o : ℕ → AOut) (k fuel : ℕ) :
    (make_api_request_from o k fuel).2.count Ev.send = (execOf o k fuel).length := by
  induction fuel generalizing k with
  | zero => simp [make_api_request_from, execOf]
  | succ fuel ih =>
    cases ho : o k with
    | exn =>
      by_cases hk : k < MAX_RETRIES - 1 <;>
        simp [make_api_request_from, ho, execOf, nonTerm, hk, List.count_cons,
          List.count_append, ih]
    | resp status body =>
      by_cases h200 : status = 200
      · cases body <;>
          simp [make_api_request_from, ho, h200, execOf, nonTerm, List.count_cons]
      · by_cases h429 : status = 429
        · simp [make_api_request_from, ho, h200, h429, execOf, nonTerm,
            List.count_cons, ih]
        · by_cases hk : k < MAX_RETRIES - 1 <;>
            simp [make_api_request_from, ho, h200, h429, hk, execOf, nonTerm,
              List.count_cons, List.count_append, ih]

theorem mar_wait_count (o : ℕ → AOut) (k fuel : ℕ) :
    (make_api_request_from o k fuel).2.count Ev.wait = (execOf o k fuel).length := by
  induction fuel generalizing k with
  | zero => simp [make_api_request_from, execOf]
  | succ fuel ih =>
    cases ho : o k with
    | exn =>
      by_cases hk : k < MAX_RETRIES - 1 <;>
        simp [make_api_request_from, ho, execOf, nonTerm, hk, List.count_cons,
          List.count_append, ih]
    | resp status body =>
      by_cases h200 : status = 200
      · cases body <;>
          simp [make_api_request_from, ho, h200, execOf, nonTerm, List.count_cons]
      · by_cases h429 : status = 429
        · simp [make_api_request_from, ho, h200, h429, execOf, nonTerm,
            List.count_cons, ih]
        · by_cases hk : k < MAX_RETRIES - 1 <;>
            simp [make_api_request_from, ho, h200, h429, hk, execOf, nonTerm,
              List.count_cons, List.count_append, ih]

theorem mar_record_count (o : ℕ → AOut) (k fuel : ℕ) :
    (make_api_request_from o k fuel).2.count Ev.record =
      ((execOf o k fuel).filter (fun a => !isExn (o a))).length := by
  induction fuel generalizing k with
  | zero => simp [make_api_request_from, execOf]
  | succ fuel ih =>
    cases ho : o k with
    | exn =>
      by_cases hk : k < MAX_RETRIES - 1 <;>
        simp [make_api_request_from, ho, execOf, nonTerm, isExn, hk,
          List.count_cons, List.count_append, List.filter_cons, ih]
    | resp status body =>
      by_cases h200 : status = 200
      · cases body <;>
          simp [make_api_request_from, ho, h200, execOf, nonTerm, isExn,
            List.count_cons, List.filter_cons]
      · by_cases h429 : status = 429
        · simp [make_api_request_from, ho, h200, h429, execOf, nonTerm, isExn,
            List.count_cons, List.filter_cons, ih]
        · by_cases hk : k < MAX_RETRIES - 1 <;>
            simp [make_api_request_from, ho, h200, h429, hk, execOf, nonTerm,
              isExn, List.count_cons, List.count_append, List.filter_cons, ih]

theorem execOf_length_le (o : ℕ → AOut) (k fuel : ℕ) :
    (execOf o k fuel).length ≤ fuel := by
  induction fuel generalizing k with
  | zero => simp [execOf]
  | succ fuel ih =>
    by_cases h : nonTerm (o k) <;> simp [execOf, h]
    exact ih (k + 1)

theorem pairOk_wait (x : Ev) : pairOk x Ev.wait = true := by
  cases x <;> rfl

theorem pairsOk_cons (a : Ev) (l : List Ev) (hl : pairsOk l = true)
    (ha : ∀ y, l.head? = some y → pairOk a y = true) : pairsOk (a :: l) = true := by
  cases l with
  | nil => rfl
  | cons b rest =>
    simp only [pairsOk, Bool.and_eq_true]
    exact ⟨ha b rfl, hl⟩

theorem pairsOk_append_wait (a b : List Ev) (ha : pairsOk a = true)
    (hb : pairsOk b = true) (hw : b = [] ∨ b.head? = some Ev.wait) :
    pairsOk (a ++ b) = true := by
  induction a with
  | nil => simpa using hb
  | cons x a ih =>
    cases a with
    | nil =>
      simp only [List.nil_append, List.singleton_append]
      refine pairsOk_cons x b hb ?_
      intro y hy
      rcases hw with rfl | hw
      · simp at hy
      · rw [hy] at hw
        cases hw
        exact pairOk_wait x
    | cons z a' =>
      simp only [pairsOk, Bool.and_eq_true] at ha
      simp only [List.cons_append]
      refine pairsOk_cons x ((z :: a') ++ b) (ih ha.2) ?_
      intro y hy
      simp only [List.cons_append, List.head?_cons, Option.some.injEq] at hy
      rw [← hy]
      exact ha.1

theorem mar_headWait (o : ℕ → AOut) (k fuel : ℕ) :
    (make_api_request_from o k fuel).2 = [] ∨
      (make_api_request_from o k fuel).2.head? = some Ev.wait := by
  cases fuel with
  | zero => exact Or.inl rfl
  | succ fuel =>
    right
    cases ho : o k with
    | exn => simp [make_api_request_from, ho]
    | resp status body =>
      by_cases h200 : status = 200
      · cases body <;> simp [make_api_request_from, ho, h200]
      · by_cases h429 : status = 429 <;>
          simp [make_api_request_from, ho, h200, h429]

theorem mar_pairsOk (o : ℕ → AOut) (k fuel : ℕ) :
    pairsOk (make_api_request_from o k fuel).2 = true := by
  induction fuel generalizing k with
  | zero => rfl
  | succ fuel ih =>
    have hrest := mar_headWait o (k + 1) fuel
    cases ho : o k with
    | exn =>
      by_cases hk : k < MAX_RETRIES - 1
      · simp only [make_api_request_from, ho, hk, if_true]
        show pairsOk ([Ev.wait, Ev.send, Ev.sleep (2 ^ k)] ++
          (make_api_request_from o (k + 1) fuel).2) = true
        exact pairsOk_append_wait _ _ rfl (ih (k + 1)) hrest
      · simp only [make_api_request_from, ho, hk, if_false]
        show pairsOk ([Ev.wait, Ev.send] ++
          (make_api_request_from o (k + 1) fuel).2) = true
        exact pairsOk_append_wait _ _ rfl (ih (k + 1)) hrest
    | resp status body =>
      by_cases h200 : status = 200
      · cases body <;> simp [make_api_request_from, ho, h200] <;> rfl
      · by_cases h429 : status = 429
        · simp only [make_api_request_from, ho, h200, h429, if_false, if_true]
          show pairsOk ([Ev.wait, Ev.send, Ev.record, Ev.sleep (60 * (k + 1))] ++
            (make_api_request_from o (k + 1) fuel).2) = true
          exact pairsOk_append_wait _ _ rfl (ih (k + 1)) hrest
        · by_cases hk : k < MAX_RETRIES - 1
          · simp only [make_api_request_from, ho, h200, h429, hk, if_false, if_true]
            show pairsOk ([Ev.wait, Ev.send, Ev.record, Ev.sleep (2 ^ k)] ++
              (make_api_request_from o (k + 1) fuel).2) = true
            exact pairsOk_append_wait _ _ rfl (ih (k + 1)) hrest
          · simp only [make_api_request_from, ho, h200, h429, hk, if_false]
            show pairsOk ([Ev.wait, Ev.send, Ev.record] ++
              (make_api_request_from o (k + 1) fuel).2) = true
            exact pairsOk_append_wait _ _ rfl (ih (k + 1)) hrest

theorem mar_headWait_ok (o : ℕ → AOut) (k fuel : ℕ) :
    headWait (make_api_request_from o k fuel).2 = true := by
  rcases mar_headWait o k fuel with h | h
  · rw [h]; rfl
  · cases htr : (make_api_request_from o k fuel).2 with
    | nil => rfl
    | cons e rest =>
      rw [htr] at h
      simp only [List.head?_cons, Option.some.injEq] at h
      rw [h]
      rfl

theorem mar_429_sleep (o : ℕ → AOut) (k fuel a : ℕ) (body : Option QueryRes)
    (hka : k ≤ a) (haf : a < k + fuel)
    (hpre : ∀ b, k ≤ b → b < a → nonTerm (o b))
    (ha : o a = AOut.resp 429 body) :
    Ev.sleep (60 * (a + 1)) ∈ (make_api_request_from o k fuel).2 := by
  induction fuel generalizing k with
  | zero => omega
  | succ fuel ih =>
    by_cases hk : k = a
    · subst hk
      simp [make_api_request_from, ha]
    · have hlt : k < a := lt_of_le_of_ne hka hk
      have hnt : nonTerm (o k) := hpre k le_rfl hlt
      have hrec : Ev.sleep (60 * (a + 1)) ∈ (make_api_request_from o (k + 1) fuel).2 := by
        refine ih (k + 1) (by omega) (by omega) ?_
        intro b hb hba
        exact hpre b (by omega) hba
      cases ho : o k with
      | exn =>
        by_cases hkr : k < MAX_RETRIES - 1 <;>
          simp [make_api_request_from, ho, hkr, hrec]
      | resp status body' =>
        have h200 : status ≠ 200 := by
          rw [ho] at hnt
          exact hnt
        by_cases h429 : status = 429
        · simp [make_api_request_from, ho, h200, h429, hrec]
        · by_cases hkr : k < MAX_RETRIES - 1 <;>
            simp [make_api_request_from, ho, h200, h429, hkr, hrec]

theorem mar_all_fail (o : ℕ → AOut) (k fuel : ℕ)
    (h : ∀ a, k ≤ a → a < k + fuel → nonTerm (o a)) :
    (make_api_request_from o k fuel).1 = MResult.fail := by
  induction fuel generalizing k with
  | zero => rfl
  | succ fuel ih =>
    have hnt : nonTerm (o k) := h k le_rfl (by omega)
    have hrec : (make_api_request_from o (k + 1) fuel).1 = MResult.fail := by
      refine ih (k + 1) ?_
      intro a ha haf
      exact h a (by omega) (by omega)
    cases ho : o k with
    | exn =>
      by_cases hkr : k < MAX_RETRIES - 1 <;>
        simp [make_api_request_from, ho, hkr, hrec]
    | resp status body =>
      have h200 : status ≠ 200 := by
        rw [ho] at hnt
        exact hnt
      by_cases h429 : status = 429
      · simp [make_api_request_from, ho, h200, h429, hrec]
      · by_cases hkr : k < MAX_RETRIES - 1 <;>
          simp [make_api_request_from, ho, h200, h429, hkr, hrec]

/-! ## Lemmas about `AutocompleteExplorer.make_request` -/

theorem make_request_429_unbounded (o : ℕ → XOut)
    (h : ∀ a, ∃ b, o a = XOut.resp 429 b) (fuel k : ℕ) :
    make_request o fuel k = (none, fuel) := by
  induction fuel generalizing k with
  | zero => rfl
  | succ fuel ih =>
    obtain ⟨b, hb⟩ := h k
    simp [make_request, hb, ih (k + 1)]

theorem make_request_exn (o : ℕ → XOut) (fuel k : ℕ) (h : o k = XOut.exn) :
    make_request o (fuel + 1) k = (some [], 1) := by
  simp [make_request, h]

theorem make_request_other_status (o : ℕ → XOut) (fuel k status : ℕ)
    (body : Except Unit (Option (List String))) (h : o k = XOut.resp status body)
    (h200 : status ≠ 200) (h429 : status ≠ 429) :
    make_request o (fuel + 1) k = (some [], 1) := by
  simp [make_request, h, h200, h429]

theorem make_request_parse_exn (o : ℕ → XOut) (fuel k : ℕ) (e : Unit)
    (h : o k = XOut.resp 200 (Except.error e)) :
    make_request o (fuel + 1) k = (some [], 1) := by
  simp [make_request, h]

theorem make_request_no_results (o : ℕ → XOut) (fuel k : ℕ)
    (h : o k = XOut.resp 200 (Except.ok none)) :
    make_request o (fuel + 1) k = (some [], 1) := by
  simp [make_request, h]

theorem make_request_429_429_200 (o : ℕ → XOut) (fuel k : ℕ)
    (b1 b2 : Except Unit (Option (List String))) (res : List String)
    (h1 : o k = XOut.resp 429 b1) (h2 : o (k + 1) = XOut.resp 429 b2)
    (h3 : o (k + 2) = XOut.resp 200 (Except.ok (some res))) :
    make_request o (fuel + 3) k = (some res, 3) := by
  show make_request o (fuel + 2 + 1) k = (some res, 3)
  simp only [make_request, h1, if_true, reduceIte]
  show (((make_request o (fuel + 1 + 1) (k + 1)).1,
    (make_request o (fuel + 1 + 1) (k + 1)).2 + 1) : Option (List String) × ℕ) = (some res, 3)
  simp only [make_request, h2, reduceIte]
  show (((make_request o (fuel + 1) (k + 2)).1,
    (make_request o (fuel + 1) (k + 2)).2 + 1 + 1) : Option (List String) × ℕ) = (some res, 3)
  simp [make_request, h3]

/-! ## Lemmas about the v3 query set -/

theorem v3_two_char_not_special (a b : Char) (ha : a ∈ specials) (hb : b ∈ specials) :
    [a, b] ∉ v3_two_char_queries := by
  intro hmem
  simp only [v3_two_char_queries, List.mem_flatMap, List.mem_filterMap] at hmem
  obtain ⟨x, _, y, _, hf⟩ := hmem
  by_cases hxy : x ∈ specials ∧ y ∈ specials
  · simp [hxy] at hf
  · simp only [hxy, if_false, Option.some.injEq] at hf
    have hx : x = a := (List.cons.injEq _ _ _ _ ▸ hf).1
    have hy : y = b := by
      have := (List.cons.injEq _ _ _ _ ▸ hf).2
      exact (List.cons.injEq _ _ _ _ ▸ this).1
    exact hxy (hx ▸ hy ▸ ⟨ha, hb⟩)

theorem v3_two_char_mem (a b : Char) (ha : a ∈ v3_chars) (hb : b ∈ v3_chars)
    (h : ¬(a ∈ specials ∧ b ∈ specials)) : [a, b] ∈ v3_two_char_queries := by
  simp only [v3_two_char_queries, List.mem_flatMap]
  refine ⟨a, ha, ?_⟩
  simp only [List.mem_filterMap]
  exact ⟨b, hb, by simp [h]⟩

/-! ## Lemmas about sequential rate-limited runs -/

theorem waitNow_ge (L w : ℕ) (s : SeqState) : s.now ≤ waitNow L w s := by
  unfold waitNow
  split
  · exact le_refl _
  · cases s.ts with
    | nil => exact le_refl _
    | cons o rest => exact le_max_left _ _

theorem waitNow_blocked (L w : ℕ) (s : SeqState) (o : ℕ) (rest : List ℕ)
    (hts : s.ts = o :: rest) (hlen : ¬ s.ts.length < L) :
    o + w ≤ waitNow L w s := by
  unfold waitNow
  rw [if_neg hlen, hts]
  exact le_max_right _ _

theorem filter_length_mono (l : List ℕ) (p q : ℕ → Bool)
    (h : ∀ x ∈ l, p x = true → q x = true) :
    (l.filter p).length ≤ (l.filter q).length := by
  induction l with
  | nil => simp
  | cons x l ih =>
    have ih' := ih (fun y hy => h y (List.mem_cons_of_mem _ hy))
    by_cases hp : p x = true
    · rw [List.filter_cons_of_pos hp, List.filter_cons_of_pos (h x (List.mem_cons_self x l) hp)]
      simpa using ih'
    · rw [List.filter_cons_of_neg (by simpa using hp)]
      refine le_trans ih' ?_
      by_cases hq : q x = true
      · rw [List.filter_cons_of_pos hq]
        simp
      · rw [List.filter_cons_of_neg (by simpa using hq)]

theorem forall2_filter_le (v w : ℕ) (l₁ l₂ : List ℕ)
    (h : List.Forall₂ (· ≤ ·) l₁ l₂) :
    (l₁.filter (fun x => decide (v < x + w))).length ≤
      (l₂.filter (fun x => decide (v < x + w))).length := by
  induction h with
  | nil => simp
  | cons hab hrest ih =>
    rename_i a b l₁' l₂'
    by_cases hrec : v < a + w
    · rw [List.filter_cons_of_pos (by simpa using hrec),
        List.filter_cons_of_pos (by simp only [decide_eq_true_eq]; omega)]
      simpa using ih
    · rw [List.filter_cons_of_neg (by simpa using hrec)]
      refine le_trans ih ?_
      by_cases hb : v < b + w
      · rw [List.filter_cons_of_pos (by simpa using hb)]
        simp
      · rw [List.filter_cons_of_neg (by simpa using hb)]

theorem suffix_append_one (l₁ l₂ : List ℕ) (a : ℕ) (h : l₁ <:+ l₂) :
    l₁ ++ [a] <:+ l₂ ++ [a] := by
  obtain ⟨t, rfl⟩ := h
  exact ⟨t, by simp⟩

theorem doRequest_eq (L w : ℕ) (s : SeqState) (gap slack lat : ℕ) :
    doRequest L w s gap slack lat =
      { now := waitNow L w { s with now := s.now + gap } + slack + lat,
        ts := add_request w (waitNow L w { s with now := s.now + gap } + slack + lat) s.ts,
        sends := s.sends ++ [waitNow L w { s with now := s.now + gap } + slack],
        recs := s.recs ++ [waitNow L w { s with now := s.now + gap } + slack + lat] } := by
  rfl

theorem seqinv_step (L w : ℕ) (s : SeqState) (gap slack lat : ℕ) (hL : 1 ≤ L)
    (hpos : 1 ≤ slack + lat) (h : SeqInv L w s) :
    SeqInv L w (doRequest L w s gap slack lat) := by
  set n2 := waitNow L w { s with now := s.now + gap } with hn2
  set v := n2 + slack with hv
  set a := n2 + slack + lat with ha
  have hge : s.now + gap ≤ n2 := waitNow_ge L w { s with now := s.now + gap }
  have hsnow_v : s.now ≤ v := by omega
  have hsnow_a : s.now + 1 ≤ a := by omega
  have hva : v ≤ a := by omega
  have hblocked : ¬ s.ts.length < L → ∃ o rest, s.ts = o :: rest ∧ o + w < a := by
    intro hlen
    cases hts : s.ts with
    | nil =>
      rw [hts] at hlen
      simp at hlen
      omega
    | cons o rest =>
      refine ⟨o, rest, rfl, ?_⟩
      have hb := waitNow_blocked L w { s with now := s.now + gap } o rest hts hlen
      omega
  have hts_new_le : (add_request w a s.ts).length ≤ L := by
    unfold add_request pruneTs
    rw [List.length_append]
    by_cases hlen : s.ts.length < L
    · have hsub : (s.ts.dropWhile (fun x => decide (x + w < a))).length ≤ s.ts.length :=
        (List.dropWhile_sublist _).length_le
      simp only [List.length_cons, List.length_nil]
      omega
    · obtain ⟨o, rest, hts, how⟩ := hblocked hlen
      rw [hts, List.dropWhile_cons_of_pos (by simpa using how)]
      have hsub : (rest.dropWhile (fun x => decide (x + w < a))).length ≤ rest.length :=
        (List.dropWhile_sublist _).length_le
      have hlen' : s.ts.length ≤ L := h.ts_le
      rw [hts] at hlen'
      simp only [List.length_cons, List.length_nil] at hlen' ⊢
      omega
  have hkey : ∀ t : ℕ, t < v + w → v ≤ t →
      (s.sends.filter (fun x => decide (t < x + w ∧ x ≤ t))).length + 1 ≤ L := by
    intro t htv hvt
    have step1 : (s.sends.filter (fun x => decide (t < x + w ∧ x ≤ t))).length ≤
        (s.sends.filter (fun x => decide (v < x + w))).length := by
      refine filter_length_mono _ _ _ ?_
      intro x hx hpx
      have hxle : x ≤ s.now := h.sends_le_now x hx
      simp only [decide_eq_true_eq] at hpx ⊢
      omega
    have step3 : (s.sends.filter (fun x => decide (v < x + w))).length ≤
        (s.recs.filter (fun x => decide (v < x + w))).length :=
      forall2_filter_le v w s.sends s.recs h.send_le_rec
    have step4 : (s.recs.filter (fun x => decide (v < x + w))) ⊆
        (s.ts.filter (fun x => decide (v < x + w))) := by
      intro x hx
      have hxr := List.mem_filter.mp hx
      have hrec : v < x + w := by simpa using hxr.2
      refine List.mem_filter.mpr ⟨?_, by simpa using hrec⟩
      by_contra hxt
      have := h.dropped_old x hxr.1 hxt
      omega
    have hnd : (s.recs.filter (fun x => decide (v < x + w))).Nodup :=
      h.recs_sorted.nodup.filter _
    have step5 : (s.recs.filter (fun x => decide (v < x + w))).length ≤
        (s.ts.filter (fun x => decide (v < x + w))).length :=
      (List.subperm_of_subset hnd step4).length_le
    have step6 : (s.ts.filter (fun x => decide (v < x + w))).length + 1 ≤ L := by
      by_cases hlen : s.ts.length < L
      · have hfl := s.ts.length_filter_le (fun x => decide (v < x + w))
        omega
      · obtain ⟨o, rest, hts, how⟩ := hblocked hlen
        have hb := waitNow_blocked L w { s with now := s.now + gap } o rest hts hlen
        have hov : ¬ v < o + w := by omega
        rw [hts, List.filter_cons_of_neg (by simpa using hov)]
        have hfl := rest.length_filter_le (fun x => decide (v < x + w))
        have hlen' : s.ts.length ≤ L := h.ts_le
        rw [hts] at hlen'
        simp only [List.length_cons] at hlen'
        omega
    omega
  rw [doRequest_eq]
  refine ⟨?_, ?_, ?_, ?_, ?_, ?_, ?_, ?_⟩
  · exact hts_new_le
  · show add_request w a s.ts <:+ s.recs ++ [a]
    unfold add_request pruneTs
    exact suffix_append_one _ _ a ((List.dropWhile_suffix _).trans h.ts_suffix)
  · show List.Sorted (· < ·) (s.recs ++ [a])
    refine (List.pairwise_append).mpr ⟨h.recs_sorted, by simp, ?_⟩
    intro x hx y hy
    rw [List.mem_singleton.mp hy]
    have := h.recs_le_now x hx
    omega
  · show ∀ x ∈ s.recs ++ [a], x ≤ a
    intro x hx
    rcases List.mem_append.mp hx with hx | hx
    · have := h.recs_le_now x hx
      omega
    · rw [List.mem_singleton.mp hx]
  · show ∀ x ∈ s.sends ++ [v], x ≤ a
    intro x hx
    rcases List.mem_append.mp hx with hx | hx
    · have := h.sends_le_now x hx
      omega
    · rw [List.mem_singleton.mp hx]
      omega
  · show List.Forall₂ (· ≤ ·) (s.sends ++ [v]) (s.recs ++ [a])
    exact List.rel_append h.send_le_rec (List.Forall₂.cons hva List.Forall₂.nil)
  · show ∀ x ∈ s.recs ++ [a], x ∉ add_request w a s.ts → x + w < a
    intro x hx hnot
    rcases List.mem_append.mp hx with hx | hx
    · unfold add_request pruneTs at hnot
      by_cases hxt : x ∈ s.ts
      · have hxtake : x ∈ s.ts.takeWhile (fun x => decide (x + w < a)) := by
          have hsplit := List.takeWhile_append_dropWhile
            (fun x => decide (x + w < a)) s.ts
          rw [← hsplit] at hxt
          rcases List.mem_append.mp hxt with hmem | hmem
          · exact hmem
          · exact absurd (List.mem_append_left _ hmem) hnot
        have := List.mem_takeWhile_imp hxtake
        simpa using this
      · have := h.dropped_old x hx hxt
        omega
    · rw [List.mem_singleton.mp hx] at hnot
      exact absurd (List.mem_append_right _ (List.mem_singleton_self a)) hnot
  · show ∀ t, windowCount w t (s.sends ++ [v]) ≤ L
    intro t
    unfold windowCount
    rw [List.filter_append, List.length_append]
    by_cases hin : t < v + w ∧ v ≤ t
    · have hone : ([v].filter (fun x => decide (t < x + w ∧ x ≤ t))).length ≤ 1 := by
        have hfl := List.length_filter_le (fun x => decide (t < x + w ∧ x ≤ t)) [v]
        simpa using hfl
      have hk := hkey t hin.1 hin.2
      omega
    · have hzero : ([v].filter (fun x => decide (t < x + w ∧ x ≤ t))).length ≤
          ([v] : List ℕ).length := List.length_filter_le _ _
      have hz : ([v].filter (fun x => decide (t < x + w ∧ x ≤ t))) = [] := by
        rw [List.filter_cons_of_neg (by simpa using hin)]
        rfl
      have hw := h.wcount t
      unfold windowCount at hw
      rw [hz]
      simpa using hw

theorem seqinv_init (L w : ℕ) : SeqInv L w initSeq := by
  refine ⟨?_, ?_, ?_, ?_, ?_, ?_, ?_, ?_⟩ <;> simp [initSeq, windowCount]

theorem seqinv_run (L w : ℕ) (script : List (ℕ × ℕ × ℕ)) (s : SeqState)
    (hL : 1 ≤ L) (hpos : ∀ r ∈ script, 1 ≤ r.2.1 + r.2.2) (h : SeqInv L w s) :
    SeqInv L w (script.foldl (fun s r => doRequest L w s r.1 r.2.1 r.2.2) s) := by
  induction script generalizing s with
  | nil => exact h
  | cons r script ih =>
    rw [List.foldl_cons]
    exact ih (doRequest L w s r.1 r.2.1 r.2.2)
      (fun x hx => hpos x (List.mem_cons_of_mem _ hx))
      (seqinv_step L w s r.1 r.2.1 r.2.2 hL (hpos r (List.mem_cons_self r script)) h)

/-! ## Remaining helper lemmas -/

theorem reachFrom_trans (o : Oracle) (s t u : BfsState)
    (h1 : ReachFrom o s t) (h2 : ReachFrom o t u) : ReachFrom o s u := by
  induction h2 with
  | refl => exact h1
  | step t' ord hr hq hperm ih => exact ReachFrom.step _ _ _ ih hq hperm

theorem take_min_eq (n : ℕ) (l : List Pfx) : l.take (min n l.length) = l.take n := by
  by_cases h : n ≤ l.length
  · rw [min_eq_left h]
  · rw [min_eq_right (le_of_not_le h), List.take_length,
      List.take_of_length_le (le_of_not_le h)]

theorem drop_min_eq (n : ℕ) (l : List Pfx) : l.drop (min n l.length) = l.drop n := by
  by_cases h : n ≤ l.length
  · rw [min_eq_left h]
  · rw [min_eq_right (le_of_not_le h), List.drop_length,
      Eq.symm (List.drop_eq_nil_of_le (le_of_not_le h))]

theorem count_one (l : List Pfx) (a : Pfx) (h : l.Nodup) (ha : a ∈ l) :
    l.count a = 1 := by
  induction l with
  | nil => simp at ha
  | cons x l ih =>
    rw [List.count_cons]
    rcases List.mem_cons.mp ha with rfl | hmem
    · have hnot : a ∉ l := (List.nodup_cons.mp h).1
      rw [List.count_eq_zero_of_not_mem hnot]
      simp
    · have hx : a ≠ x := fun hax => (List.nodup_cons.mp h).1 (hax ▸ hmem)
      rw [ih (List.nodup_cons.mp h).2 hmem]
      simp [Ne.symm hx]

/-! ## The claims -/

/-- C1: For every run of `bfs_explore`, each distinct prefix value is issued to
the endpoint at most once, and no prefix value is ever enqueued onto the
frontier twice: in every reachable state, the history of prefixes submitted to
the executor and the history of values appended to the queue (alphabet seeds
and expansion-generated prefixes alike) are both duplicate-free. -/
theorem c1_no_duplicate_issuance (o : Oracle) (s : BfsState) (h : Reach o s) :
    s.issued.Nodup ∧ s.enqHist.Nodup :=
  ⟨(reach_inv o s h).issued_nodup, (reach_inv o s h).enq_nodup⟩

/-- Witness for C1: a concrete run taking one full loop iteration with a
saturating oracle. -/
theorem c1_witness :
    (bfsStep (fun _ => some ⟨[], 10⟩) (batchOf initState) initState).issued.Nodup ∧
      (bfsStep (fun _ => some ⟨[], 10⟩) (batchOf initState) initState).enqHist.Nodup :=
  c1_no_duplicate_issuance (fun _ => some ⟨[], 10⟩) _
    (ReachFrom.step initState initState (batchOf initState)
      (ReachFrom.refl initState) (by decide) (List.Perm.refl _))

/-- C8: In every reachable state, one drain iteration of `bfs_explore` selects
up to `MAX_WORKERS` prefixes in strict FIFO order (the seen-set filter inside
the pop loop provably never discards anything): the batch is exactly
`queue.take MAX_WORKERS`, its size is `min MAX_WORKERS queue.length`, it is
smaller than `MAX_WORKERS` only when the whole queue was drained, it is empty
only when the queue was empty, and the step removes exactly those prefixes
from the front of the queue. -/
theorem c8_dequeue_batch (o : Oracle) (s : BfsState) (h : Reach o s) :
    batchOf s = s.queue.take MAX_WORKERS ∧
    (batchOf s).length = min MAX_WORKERS s.queue.length ∧
    ((batchOf s).length < MAX_WORKERS → batchOf s = s.queue) ∧
    (batchOf s = [] → s.queue = []) ∧
    (∀ ord, ord.Perm (batchOf s) →
      ∃ ext, (bfsStep o ord s).queue = s.queue.drop MAX_WORKERS ++ ext) := by
  have hinv := reach_inv o s h
  have heq : batchOf s = s.queue.take MAX_WORKERS := by
    rw [batchOf, takeBatch_eq_take _ _ _ hinv.q_nodup hinv.q_proc, take_min_eq]
  refine ⟨heq, ?_, ?_, ?_, ?_⟩
  · rw [heq, List.length_take]
  · intro hlt
    rw [heq] at hlt ⊢
    rw [List.length_take] at hlt
    have : s.queue.length ≤ MAX_WORKERS := by omega
    exact List.take_of_length_le this
  · intro hnil
    rw [heq] at hnil
    rcases List.take_eq_nil_iff.mp hnil with h0 | h0
    · exact absurd h0 (by decide)
    · exact h0
  · intro ord hperm
    obtain ⟨ext, hext⟩ := foldl_queue_ext o ord (dispatch s).2
    refine ⟨ext, ?_⟩
    show ((ord.foldl (handleOne o) (dispatch s).2)).queue = _
    rw [hext]
    show (takeBatch (min MAX_WORKERS s.queue.length) s.queue s.processed).2.1 ++ ext = _
    rw [takeBatch_queue, drop_min_eq]

/-- Witness for C8: the initial state of a run. -/
theorem c8_witness :
    batchOf initState = initState.queue.take MAX_WORKERS ∧
    (batchOf initState).length = min MAX_WORKERS initState.queue.length ∧
    ((batchOf initState).length < MAX_WORKERS → batchOf initState = initState.queue) ∧
    (batchOf initState = [] → initState.queue = []) ∧
    (∀ ord, ord.Perm (batchOf initState) →
      ∃ ext, (bfsStep (fun _ => none) ord initState).queue =
        initState.queue.drop MAX_WORKERS ++ ext) :=
  c8_dequeue_batch (fun _ => none) initState (ReachFrom.refl initState)

/-- C5: For every successfully parsed result of a dispatched prefix: if its
count equals the page limit 10, then after that iteration every one-character
lowercase extension of the prefix occurs exactly once in the enqueue history
of every later reachable state ("eventually enqueued exactly once"); if its
count is strictly below the page limit, no extension of that prefix is ever
enqueued in any reachable state of the run. -/
theorem c5_expansion (o : Oracle) (s : BfsState) (ord : List Pfx) (p : Pfx)
    (r : QueryRes) (h : Reach o s) (hq : s.queue ≠ [])
    (hperm : ord.Perm (batchOf s)) (hp : p ∈ ord) (hr : o p = some r) :
    (r.count = PAGE_LIMIT →
      ∀ s₂, ReachFrom o (bfsStep o ord s) s₂ →
        ∀ c ∈ lowercase, s₂.enqHist.count (p ++ [c]) = 1) ∧
    (r.count < PAGE_LIMIT →
      ∀ (s₂ : BfsState) (c : Char), Reach o s₂ → (p ++ [c]) ∉ s₂.enqHist) := by
  constructor
  · intro hc s₂ hs₂ c hcmem
    obtain ⟨l₁, l₂, hord⟩ := List.append_of_mem hp
    subst hord
    have hmid : MidInv o (l₁ ++ p :: l₂) (dispatch s).2 :=
      dispatch_midinv o s _ (reach_inv o s h) hperm
    have hmid2 : MidInv o (p :: l₂) (l₁.foldl (handleOne o) (dispatch s).2) :=
      midinv_fold o l₁ (p :: l₂) _ hmid
    have hchild : p ++ [c] ∈
        (handleOne o (l₁.foldl (handleOne o) (dispatch s).2) p).enqHist :=
      handleOne_children o p l₂ _ hmid2 r hr hc c hcmem
    have hstep : p ++ [c] ∈ (bfsStep o (l₁ ++ p :: l₂) s).enqHist := by
      show p ++ [c] ∈ ((l₁ ++ p :: l₂).foldl (handleOne o) (dispatch s).2).enqHist
      rw [List.foldl_append, List.foldl_cons]
      exact foldl_enq_mono o l₂ _ _ hchild
    have hmem2 : p ++ [c] ∈ s₂.enqHist := reachFrom_enq_mono o _ s₂ hs₂ _ hstep
    have hreach2 : Reach o s₂ :=
      reachFrom_trans o initState _ s₂ (ReachFrom.step _ _ _ h hq hperm) hs₂
    exact count_one s₂.enqHist (p ++ [c]) (reach_inv o s₂ hreach2).enq_nodup hmem2
  · intro hc s₂ c hs₂ hmem
    have hinv := reach_inv o s₂ hs₂
    have hpq : p ∈ s.queue :=
      List.mem_of_mem_take (takeBatch_batch_sub _ _ _ p (hperm.mem_iff.mp hp))
    have hp1 : 1 ≤ p.length :=
      (reach_inv o s h).enq_len p ((reach_inv o s h).q_enq p hpq)
    have hlen : 2 ≤ (p ++ [c]).length := by
      simp only [List.length_append, List.length_cons, List.length_nil]
      omega
    obtain ⟨hpar, r', hr', hcnt⟩ := hinv.enq_parent _ hmem hlen
    rw [List.dropLast_concat, hr] at hr'
    rw [← Option.some.inj hr'] at hcnt
    exact absurd hcnt (Nat.ne_of_lt hc)

/-- Witness for C5: a below-limit count (3 < 10) for the seed prefix `a` in
the initial state, whose extension `aa` is indeed never enqueued there. -/
theorem c5_witness : (['a'] ++ ['a'] : Pfx) ∉ initState.enqHist :=
  (c5_expansion (fun _ => some ⟨[], 3⟩) initState (batchOf initState) ['a'] ⟨[], 3⟩
      (ReachFrom.refl _) (by decide) (List.Perm.refl _) (by decide) rfl).2
    (by decide) initState 'a' (ReachFrom.refl _)

/-- C7: When a fetch exhausts all retries (every attempt fails in transport or
returns a non-200 status), `make_api_request` returns `None` rather than
raising; in `bfs_explore` the handling of that prefix changes nothing but the
processing history (zero names contributed, no children appended), the run
continues identically over the rest of the batch and frontier, and no
extension of that prefix is ever enqueued. -/
theorem c7_exhausted_retries (ao : ℕ → AOut) (o : Oracle) (p : Pfx) (s : BfsState)
    (hfail : ∀ a, a < MAX_RETRIES → nonTerm (ao a)) (ho : o p = none) :
    (make_api_request ao).1 = MResult.fail ∧
    core (handleOne o s p) = core s ∧
    (∀ (s' : BfsState) (ord₁ ord₂ : List Pfx),
      core (bfsStep o (ord₁ ++ p :: ord₂) s') = core (bfsStep o (ord₁ ++ ord₂) s')) ∧
    (∀ s₂ : BfsState, Reach o s₂ → 1 ≤ p.length → ∀ c : Char,
      (p ++ [c]) ∉ s₂.enqHist) := by
  refine ⟨?_, handleOne_none_core o s p ho, ?_, ?_⟩
  · exact mar_all_fail ao 0 MAX_RETRIES (fun a _ ha => hfail a (by omega))
  · intro s' ord₁ ord₂
    show core ((ord₁ ++ p :: ord₂).foldl (handleOne o) (dispatch s').2) =
      core ((ord₁ ++ ord₂).foldl (handleOne o) (dispatch s').2)
    rw [List.foldl_append, List.foldl_append, List.foldl_cons]
    exact foldl_core_congr o ord₂ _ _
      (handleOne_none_core o (ord₁.foldl (handleOne o) (dispatch s').2) p ho)
  · intro s₂ hs₂ hp1 c hmem
    have hinv := reach_inv o s₂ hs₂
    have hlen : 2 ≤ (p ++ [c]).length := by
      simp only [List.length_append, List.length_cons, List.length_nil]
      omega
    obtain ⟨hpar, r', hr', hcnt⟩ := hinv.enq_parent _ hmem hlen
    rw [List.dropLast_concat, ho] at hr'
    exact Option.noConfusion hr'

/-- Witness for C7: every attempt of prefix `zz` raises in transport; the
fetch returns the failure value and `zz`'s handling leaves the engine state
unchanged. -/
theorem c7_witness :
    (make_api_request (fun _ => AOut.exn)).1 = MResult.fail ∧
    core (handleOne (fun _ => none) initState ['z', 'z']) = core initState ∧
    (['z', 'z'] ++ ['a'] : Pfx) ∉ initState.enqHist := by
  have h := c7_exhausted_retries (fun _ => AOut.exn) (fun _ => none) ['z', 'z']
    initState (fun a _ => trivial) rfl
  exact ⟨h.1, h.2.1, h.2.2.2 initState (ReachFrom.refl _) (by decide) 'a'⟩

set_option maxRecDepth 100000 in
/-- C2 counterexample: the `RateLimiter` shared by the thread pool of
`bfs_explore` has no lock, so `wait_if_needed`'s length check races with
`add_request`.  In the interleaving `raceScript`, 99 requests complete at
time 0 (filling the deque to 99 timestamps) and then all 20 pool threads read
`len(self.timestamps) = 99 < 100` before any of them records, so 119 requests
are sent inside one 60-second window, violating the claimed bound of
`RATE_LIMIT = 100`. -/
theorem c2_counterexample :
    (runScript RATE_LIMIT WINDOW MAX_WORKERS raceScript).isSome = true ∧
    ConcReach raceFinal ∧
    windowCount WINDOW 0 raceFinal.sends = 119 ∧
    RATE_LIMIT < windowCount WINDOW 0 raceFinal.sends := by
  refine ⟨by decide, ⟨raceScript, by decide⟩, by decide, by decide⟩

/-- C2 amended: when the limiter is exercised by one caller at a time (no
concurrent interleaving) and wall time strictly advances between each limiter
check and the corresponding `add_request` (`slack + lat ≥ 1` per request),
the number of requests sent inside any half-open sliding window of `w`
seconds never exceeds the limit `L` — in particular at most `RATE_LIMIT`
requests per `WINDOW` seconds for the instance built in `bfs_explore`.  The
claimed bound does not hold for the concurrent pool (see the counterexample)
and the async entry point uses no rate limiter at all. -/
theorem c2_amended (L w : ℕ) (script : List (ℕ × ℕ × ℕ)) (t : ℕ) (hL : 1 ≤ L)
    (hpos : ∀ r ∈ script, 1 ≤ r.2.1 + r.2.2) :
    windowCount w t (seqRun L w script).sends ≤ L :=
  (seqinv_run L w script initSeq hL hpos (seqinv_init L w)).wcount t

/-- Witness for C2 amended: a two-request sequential run under the limits of
`bfs_explore`. -/
theorem c2_witness :
    windowCount WINDOW 0 (seqRun RATE_LIMIT WINDOW [(0, 0, 1), (0, 1, 0)]).sends ≤
      RATE_LIMIT :=
  c2_amended RATE_LIMIT WINDOW [(0, 0, 1), (0, 1, 0)] 0 (by decide) (by decide)

/-- C3 counterexample: when all five attempts of `make_api_request` raise in
transport, five requests are sent but `add_request` never runs — no timestamp
is recorded for any sent attempt, refuting "a timestamp is recorded for every
attempt that is sent, including attempts whose transport fails"; and on a
successful attempt the trace is wait, send, record — the timestamp is
recorded after the send, not "immediately before sending". -/
theorem c3_counterexample :
    (make_api_request (fun _ => AOut.exn)).2.count Ev.send = 5 ∧
    (make_api_request (fun _ => AOut.exn)).2.count Ev.record = 0 ∧
    (make_api_request (fun _ => AOut.resp 200 (some ⟨[], 3⟩))).2 =
      [Ev.wait, Ev.send, Ev.record] := by
  refine ⟨by decide, by decide, by decide⟩

/-- C3 amended: on every attempt the client calls `wait_if_needed` and then
sends; a timestamp is recorded immediately after a response is received (a
`record` event occurs only directly after a `send`, and a `send` only
directly after a `wait`), exactly one `wait` and one `send` occur per
executed attempt, and a timestamp is recorded exactly for those attempts
whose transport did not raise. -/
theorem c3_amended (ao : ℕ → AOut) :
    headWait (make_api_request ao).2 = true ∧
    pairsOk (make_api_request ao).2 = true ∧
    (make_api_request ao).2.count Ev.wait = (execOf ao 0 MAX_RETRIES).length ∧
    (make_api_request ao).2.count Ev.send = (execOf ao 0 MAX_RETRIES).length ∧
    (make_api_request ao).2.count Ev.record =
      ((execOf ao 0 MAX_RETRIES).filter (fun a => !isExn (ao a))).length :=
  ⟨mar_headWait_ok ao 0 MAX_RETRIES, mar_pairsOk ao 0 MAX_RETRIES,
   mar_wait_count ao 0 MAX_RETRIES, mar_send_count ao 0 MAX_RETRIES,
   mar_record_count ao 0 MAX_RETRIES⟩

/-- C4 counterexample: the async client's 429 handler recurses with no attempt
counter.  Under a persistently rate-limiting endpoint it is still running
after 6 exchanges — more than any claimed bound of `MAX_RETRIES = 5` — and by
`make_request_429_unbounded` after any number of exchanges whatsoever. -/
theorem c4_counterexample :
    make_request (fun _ => XOut.resp 429 (Except.ok none)) 6 0 = (none, 6) ∧
    MAX_RETRIES < 6 :=
  ⟨rfl, by decide⟩

/-- C4 amended: in `app.py`, `make_api_request` performs at most `MAX_RETRIES`
attempts per prefix, and when a reached attempt `a` returns 429 the client
sleeps `60 * (a + 1)` seconds (the cooldown scales with the attempt number);
in the async extractor, the 429 retry recursion is unbounded: under a
persistent 429 it is still unresolved after every fuel bound `n`, having made
`n` attempts. -/
theorem c4_amended (ao : ℕ → AOut) (xo : ℕ → XOut) (n a : ℕ)
    (body : Option QueryRes) :
    (make_api_request ao).2.count Ev.send ≤ MAX_RETRIES ∧
    (a < MAX_RETRIES → (∀ b, b < a → nonTerm (ao b)) →
      ao a = AOut.resp 429 body →
      Ev.sleep (60 * (a + 1)) ∈ (make_api_request ao).2) ∧
    ((∀ m, ∃ b, xo m = XOut.resp 429 b) → make_request xo n 0 = (none, n)) := by
  refine ⟨?_, ?_, ?_⟩
  · show (make_api_request_from ao 0 MAX_RETRIES).2.count Ev.send ≤ MAX_RETRIES
    rw [mar_send_count]
    exact execOf_length_le ao 0 MAX_RETRIES
  · intro ha hpre h429
    exact mar_429_sleep ao 0 MAX_RETRIES a body (by omega) (by omega)
      (fun b _ hb => hpre b hb) h429
  · intro hx
    exact make_request_429_unbounded xo hx n 0

/-- Witness for C4 amended: a persistently 429-answering endpoint. -/
theorem c4_witness :
    (make_api_request (fun _ => AOut.resp 429 none)).2.count Ev.send ≤ MAX_RETRIES ∧
    Ev.sleep 60 ∈ (make_api_request (fun _ => AOut.resp 429 none)).2 ∧
    make_request (fun _ => XOut.resp 429 (Except.ok none)) 7 0 = (none, 7) := by
  have h := c4_amended (fun _ => AOut.resp 429 none)
    (fun _ => XOut.resp 429 (Except.ok none)) 7 0 none
  refine ⟨h.1, ?_, h.2.2 (fun m => ⟨Except.ok none, rfl⟩)⟩
  have h429 := h.2.1 (by decide) (fun b hb => by exact fun hc => by simp at hc) rfl
  simpa using h429

/-- C6 counterexample: a prefix answered 429, 429, then 200 causes 3 attempts
(3 sends) in `make_api_request`, but `bfs_explore` adds
`len(current_batch) = 1` to the shared `request_count` for that prefix — one
per dispatched prefix, not one per attempt, so 1 request is counted rather
than the claimed 3. -/
theorem c6_counterexample :
    (make_api_request (fun k => if k < 2 then AOut.resp 429 none
        else AOut.resp 200 (some ⟨[], 10⟩))).2.count Ev.send = 3 ∧
    (bfsStep (fun _ => some ⟨[], 10⟩)
        (batchOf ⟨[['e']], [], [], 0, [], [], [['e']]⟩)
        ⟨[['e']], [], [], 0, [], [], [['e']]⟩).requestCount = 1 ∧
    (1 : ℕ) ≠ 3 := by
  refine ⟨by decide, by decide, by decide⟩

/-- C6 amended: in `bfs_explore` the shared `request_count` grows by the
number of prefixes in the dispatched batch — one per prefix regardless of how
many attempts its fetch makes — while in the async extractor every attempt
increments the per-version `requests_count`: a prefix answered 429, 429, 200
counts exactly 3 requests there and its accepted result is returned. -/
theorem c6_amended (o : Oracle) (ord : List Pfx) (s : BfsState)
    (xo : ℕ → XOut) (fuel k : ℕ) (b1 b2 : Except Unit (Option (List String)))
    (res : List String) :
    (bfsStep o ord s).requestCount = s.requestCount + (batchOf s).length ∧
    (xo k = XOut.resp 429 b1 → xo (k + 1) = XOut.resp 429 b2 →
      xo (k + 2) = XOut.resp 200 (Except.ok (some res)) →
      make_request xo (fuel + 3) k = (some res, 3)) := by
  constructor
  · show (ord.foldl (handleOne o) (dispatch s).2).requestCount = _
    rw [foldl_requestCount]
    rfl
  · intro h1 h2 h3
    exact make_request_429_429_200 xo fuel k b1 b2 res h1 h2 h3

/-- Witness for C6 amended: the scenario 429, 429, 200 for one prefix. -/
theorem c6_witness :
    (bfsStep (fun _ => none) [] initState).requestCount =
      initState.requestCount + (batchOf initState).length ∧
    make_request (fun k => if k < 2 then XOut.resp 429 (Except.ok none)
      else XOut.resp 200 (Except.ok (some ["emma"]))) 3 0 = (some ["emma"], 3) := by
  have h := c6_amended (fun _ => none) [] initState
    (fun k => if k < 2 then XOut.resp 429 (Except.ok none)
      else XOut.resp 200 (Except.ok (some ["emma"]))) 0 0
    (Except.ok none) (Except.ok none) ["emma"]
  exact ⟨h.1, h.2 rfl rfl rfl⟩

/-- C9: The async client's fetch is total at its public boundary: a transport
or body exception yields `[]` (caught by the surrounding `except`), any
status other than 200 and 429 yields `[]`, a 200 whose JSON parse raises
yields `[]`, a 200 without a `results` field yields `[]`, and a 200 with a
`results` field yields that list — so every caller that gets an answer gets a
list of names, never an exception. -/
theorem c9_make_request_total (o : ℕ → XOut) (fuel k status : ℕ)
    (body : Except Unit (Option (List String))) :
    (o k = XOut.exn → make_request o (fuel + 1) k = (some [], 1)) ∧
    (o k = XOut.resp status body → status ≠ 200 → status ≠ 429 →
      make_request o (fuel + 1) k = (some [], 1)) ∧
    (∀ e, o k = XOut.resp 200 (Except.error e) →
      make_request o (fuel + 1) k = (some [], 1)) ∧
    (o k = XOut.resp 200 (Except.ok none) →
      make_request o (fuel + 1) k = (some [], 1)) ∧
    (∀ res, o k = XOut.resp 200 (Except.ok (some res)) →
      make_request o (fuel + 1) k = (some res, 1)) := by
  refine ⟨?_, ?_, ?_, ?_, ?_⟩
  · intro h
    exact make_request_exn o fuel k h
  · intro h h200 h429
    exact make_request_other_status o fuel k status body h h200 h429
  · intro e h
    exact make_request_parse_exn o fuel k e h
  · intro h
    exact make_request_no_results o fuel k h
  · intro res h
    simp [make_request, h]

/-- Witness for C9: a 503 response yields the empty list. -/
theorem c9_witness :
    make_request (fun _ => XOut.resp 503 (Except.ok none)) 1 0 = (some [], 1) :=
  (c9_make_request_total (fun _ => XOut.resp 503 (Except.ok none)) 0 0 503
    (Except.ok none)).2.1 rfl (by decide) (by decide)

/-- C10: During v3 exploration no two-character query made of two special
characters (both drawn from `+`, `-`, space, `.`) is ever issued, and every
other two-character combination over the v3 alphabet is issued. -/
theorem c10_v3_special_pairs :
    (∀ a ∈ specials, ∀ b ∈ specials, [a, b] ∉ v3_two_char_queries) ∧
    (∀ a ∈ v3_chars, ∀ b ∈ v3_chars, ¬(a ∈ specials ∧ b ∈ specials) →
      [a, b] ∈ v3_two_char_queries) :=
  ⟨fun a ha b hb => v3_two_char_not_special a b ha hb,
   fun a ha b hb h => v3_two_char_mem a b ha hb h⟩

/-- Witness for C10: the pair "space dot" is skipped while "a+" is issued. -/
theorem c10_witness :
    ([' ', '.'] : Pfx) ∉ v3_two_char_queries ∧
      (['a', '+'] : Pfx) ∈ v3_two_char_queries :=
  ⟨c10_v3_special_pairs.1 ' ' (by decide) '.' (by decide),
   c10_v3_special_pairs.2 'a' (by decide) '+' (by decide) (by decide)⟩
